import Mathlib

/-!
# Verification of the AIrsenal squad-optimization engine

A shallow embedding of the squad constraint model (`airsenal/framework/squad.py`),
the transfer-search and strategy-evaluation utilities
(`airsenal/framework/optimization_utils.py`), and the result selector
(`airsenal/scripts/fill_transfersuggestion_table.py`), together with theorems
settling the specification claims about them.

Conventions of the embedding:
* Python ints are modelled as `ℤ` (budget) or `ℕ` (player ids, prices, counts,
  gameweeks); predicted points (floats in the source) are modelled as `ℚ`.
* External collaborators (the database and API lookups giving a player's current
  market price, the ranked candidate lists from `get_predicted_points`, the
  predicted-points maps) are passed in as explicit function/list parameters.
* Fallible source code (Python exceptions, unbound-variable errors) is modelled
  with `Option`.
* Python truthiness of an optional integer argument (`if price:`) is modelled
  explicitly: `none` and `some 0` are both falsy.
-/

namespace AIrsenal

/-- Player positions, the keys of `TOTAL_PER_POSITION` in `squad.py`. -/
inductive Position where
  | GK
  | DEF
  | MID
  | FWD
deriving DecidableEq, Repr

/-- `CandidatePlayer` as used by `Squad`: identity, team, position and the
purchase price bound to the squad membership.  (The mutable lineup flags
`is_starting`/`is_captain`/... and the predicted-points map are irrelevant to
squad mutation and are modelled separately where needed.) -/
structure CandidatePlayer where
  player_id : ℕ
  team : ℕ
  position : Position
  purchase_price : ℕ
deriving DecidableEq, Repr

/-- The per-position counters `Squad.num_position`, a dict with the four fixed
keys.  The values are integers maintained incrementally by the source. -/
structure PosCount where
  nGK : ℤ
  nDEF : ℤ
  nMID : ℤ
  nFWD : ℤ
deriving DecidableEq, Repr

def PosCount.get (c : PosCount) : Position → ℤ
  | .GK => c.nGK
  | .DEF => c.nDEF
  | .MID => c.nMID
  | .FWD => c.nFWD

def PosCount.inc (c : PosCount) : Position → PosCount
  | .GK => { c with nGK := c.nGK + 1 }
  | .DEF => { c with nDEF := c.nDEF + 1 }
  | .MID => { c with nMID := c.nMID + 1 }
  | .FWD => { c with nFWD := c.nFWD + 1 }

def PosCount.dec (c : PosCount) : Position → PosCount
  | .GK => { c with nGK := c.nGK - 1 }
  | .DEF => { c with nDEF := c.nDEF - 1 }
  | .MID => { c with nMID := c.nMID - 1 }
  | .FWD => { c with nFWD := c.nFWD - 1 }

/-- `TOTAL_PER_POSITION = {"GK": 2, "DEF": 5, "MID": 5, "FWD": 3}`. -/
def TOTAL_PER_POSITION : Position → ℤ
  | .GK => 2
  | .DEF => 5
  | .MID => 5
  | .FWD => 3

/-- The `Squad` object: ordered player list, budget, per-position counters. -/
structure Squad where
  players : List CandidatePlayer
  budget : ℤ
  num_position : PosCount
deriving DecidableEq, Repr

/-- `Squad.__init__(budget=1000)`: empty player list, default budget 1000. -/
def Squad.empty : Squad := ⟨[], 1000, ⟨0, 0, 0, 0⟩⟩

/-- `Squad.is_complete`: the per-position counters sum to 15. -/
def Squad.is_complete (s : Squad) : Bool :=
  s.num_position.nGK + s.num_position.nDEF + s.num_position.nMID
    + s.num_position.nFWD == 15

/-- `Squad.check_no_duplicate_player`: no existing player has the same id. -/
def Squad.check_no_duplicate_player (s : Squad) (player : CandidatePlayer) : Bool :=
  s.players.all fun p => p.player_id != player.player_id

/-- `Squad.check_num_in_position`: the counter for the candidate's position is
below the quota. -/
def Squad.check_num_in_position (s : Squad) (player : CandidatePlayer) : Bool :=
  s.num_position.get player.position < TOTAL_PER_POSITION player.position

/-- `Squad.check_num_per_team`: the loop counts players already in the squad
with the candidate's team and returns `False` exactly when that count reaches 3,
i.e. succeeds iff fewer than 3 existing players share the team. -/
def Squad.check_num_per_team (s : Squad) (player : CandidatePlayer) : Bool :=
  (s.players.countP fun p => p.team == player.team) < 3

/-- `Squad.check_cost`: the candidate's purchase price fits in the budget. -/
def Squad.check_cost (s : Squad) (player : CandidatePlayer) : Bool :=
  (player.purchase_price : ℤ) ≤ s.budget

/-- The price override at the top of `Squad.add_player`: `if price:
player.purchase_price = price` (Python truthiness: `None` and `0` both skip). -/
def setPrice (player : CandidatePlayer) (price : Option ℕ) : CandidatePlayer :=
  match price with
  | some pr => if pr ≠ 0 then { player with purchase_price := pr } else player
  | none => player

/-- `Squad.add_player(p, price, check_budget, check_team)` for a candidate that
is already a `CandidatePlayer` object.  Returns the Python `bool` result paired
with the (possibly unchanged) squad state. -/
def Squad.add_player (s : Squad) (p : CandidatePlayer) (price : Option ℕ)
    (check_budget : Bool := true) (check_team : Bool := true) : Bool × Squad :=
  let player := setPrice p price
  if ¬ s.check_no_duplicate_player player then (false, s)
  else if ¬ s.check_num_in_position player then (false, s)
  else if check_budget ∧ ¬ s.check_cost player then (false, s)
  else if check_team ∧ ¬ s.check_num_per_team player then (false, s)
  else
    (true,
      { players := s.players ++ [player]
        budget := s.budget - player.purchase_price
        num_position := s.num_position.inc player.position })

/-- `Squad.get_sell_price_for_player` on the non-API path: `priceNowDb` is the
database lookup `player_db.price(season, gameweek)` (`none` when the player or
price row is missing).  `if not price_now:` treats a 0 price like a missing one
and falls back to the purchase price; a price rise sells at the floored
midpoint `(price_now + price_bought) // 2`. -/
def get_sell_price_for_player (player : CandidatePlayer) (priceNowDb : Option ℕ) : ℕ :=
  let price_bought := player.purchase_price
  let price_now :=
    match priceNowDb with
    | some v => if v ≠ 0 then v else price_bought
    | none => price_bought
  if price_now > price_bought then (price_now + price_bought) / 2 else price_now

/-- The scan inside `Squad.remove_player`: find the first player with the given
id; on a hit return the budget credit (the explicit price if truthy, else the
sell price), the found player's position, and the list with that player
removed. -/
def removeLoop (pid : ℕ) (price : Option ℕ) (priceNow : ℕ → Option ℕ) :
    List CandidatePlayer → Option (ℤ × Position × List CandidatePlayer)
  | [] => none
  | q :: rest =>
    if q.player_id = pid then
      let credit : ℤ :=
        match price with
        | some pr =>
          if pr ≠ 0 then (pr : ℤ) else (get_sell_price_for_player q (priceNow pid) : ℤ)
        | none => (get_sell_price_for_player q (priceNow pid) : ℤ)
      some (credit, q.position, rest)
    else
      match removeLoop pid price priceNow rest with
      | some (c, pos, rest2) => some (c, pos, q :: rest2)
      | none => none

/-- `Squad.remove_player(player_id, price)` (non-API path): `priceNow` models
the database price lookup used by `get_sell_price_for_player`.  Credits the
budget, decrements the found player's position counter, removes the player. -/
def Squad.remove_player (s : Squad) (pid : ℕ) (price : Option ℕ)
    (priceNow : ℕ → Option ℕ) : Bool × Squad :=
  match removeLoop pid price priceNow s.players with
  | none => (false, s)
  | some (credit, pos, players2) =>
    (true,
      { players := players2
        budget := s.budget + credit
        num_position := s.num_position.dec pos })

/-! ## Squad invariants (claims C1, C8, C10)

`Op` is one client-visible mutation of a `Squad`: an `add_player` call (with its
optional explicit price and its `check_budget`/`check_team` flags) or a
`remove_player` call (with its optional explicit price and the database price
lookup in effect for that call). -/

inductive Op where
  | add (p : CandidatePlayer) (price : Option ℕ) (check_budget check_team : Bool)
  | remove (pid : ℕ) (price : Option ℕ) (priceNow : ℕ → Option ℕ)

/-- The squad state after one operation. -/
def applyOp (s : Squad) : Op → Squad
  | .add p price cb ct => (s.add_player p price cb ct).2
  | .remove pid price pn => (s.remove_player pid price pn).2

/-- Whether one operation reports success on the given state. -/
def opSucceeds (s : Squad) : Op → Bool
  | .add p price cb ct => (s.add_player p price cb ct).1
  | .remove pid price pn => (s.remove_player pid price pn).1

/-- The squad reached by a call sequence starting from the empty squad. -/
def runOps (ops : List Op) : Squad := ops.foldl applyOp Squad.empty

/-- Every operation in the sequence reports success. -/
def allSucceed : List Op → Squad → Bool
  | [], _ => true
  | op :: rest, s => opSucceeds s op && allSucceed rest (applyOp s op)

/-- Number of squad members playing in the given position. -/
def actualCount (s : Squad) (pos : Position) : ℕ :=
  s.players.countP fun p => p.position == pos

/-- Number of squad members belonging to the given team. -/
def teamCount (s : Squad) (t : ℕ) : ℕ :=
  s.players.countP fun p => p.team == t

/-- The cached `num_position` counters agree with the player list. -/
def countsSync (s : Squad) : Prop :=
  s.num_position.nGK = actualCount s .GK
    ∧ s.num_position.nDEF = actualCount s .DEF
    ∧ s.num_position.nMID = actualCount s .MID
    ∧ s.num_position.nFWD = actualCount s .FWD

/-- No two squad members share a player id. -/
def idsNodup (s : Squad) : Prop :=
  (s.players.map fun p => p.player_id).Nodup

/-- The structural squad invariant: counters in sync, position quotas obeyed,
no duplicate ids. -/
def Inv (s : Squad) : Prop :=
  countsSync s
    ∧ (∀ pos, (actualCount s pos : ℤ) ≤ TOTAL_PER_POSITION pos)
    ∧ idsNodup s

/-- `add` ops in the sequence all have `check_budget = true`. -/
def addsBudgetChecked : List Op → Bool
  | [] => true
  | .add _ _ cb _ :: rest => cb && addsBudgetChecked rest
  | .remove _ _ _ :: rest => addsBudgetChecked rest

/-- `add` ops in the sequence all have `check_team = true`. -/
def addsTeamChecked : List Op → Bool
  | [] => true
  | .add _ _ _ ct :: rest => ct && addsTeamChecked rest
  | .remove _ _ _ :: rest => addsTeamChecked rest

instance (s : Squad) : Decidable (countsSync s) := by
  unfold countsSync
  infer_instance

instance (s : Squad) : Decidable (idsNodup s) := by
  unfold idsNodup
  exact List.nodupDecidable _

lemma countsSync_get {s : Squad} (h : countsSync s) (pos : Position) :
    s.num_position.get pos = actualCount s pos := by
  obtain ⟨h1, h2, h3, h4⟩ := h
  cases pos <;> simpa [PosCount.get]

lemma PosCount.get_inc (c : PosCount) (q pos : Position) :
    (c.inc q).get pos = c.get pos + if q = pos then 1 else 0 := by
  cases q <;> cases pos <;> simp [PosCount.inc, PosCount.get]

lemma PosCount.get_dec (c : PosCount) (q pos : Position) :
    (c.dec q).get pos = c.get pos - if q = pos then 1 else 0 := by
  cases q <;> cases pos <;> simp [PosCount.dec, PosCount.get]

lemma actualCount_append (l1 l2 : List CandidatePlayer) (budget : ℤ) (np : PosCount)
    (pos : Position) :
    actualCount ⟨l1 ++ l2, budget, np⟩ pos
      = actualCount ⟨l1, budget, np⟩ pos + actualCount ⟨l2, budget, np⟩ pos := by
  simp [actualCount, List.countP_append]

/-- Structure of a successful `add_player` call. -/
lemma add_player_success {s : Squad} {p : CandidatePlayer} {price : Option ℕ}
    {cb ct : Bool} (h : (s.add_player p price cb ct).1 = true) :
    s.check_no_duplicate_player (setPrice p price) = true
    ∧ s.check_num_in_position (setPrice p price) = true
    ∧ (cb = true → s.check_cost (setPrice p price) = true)
    ∧ (ct = true → s.check_num_per_team (setPrice p price) = true)
    ∧ (s.add_player p price cb ct).2
        = { players := s.players ++ [setPrice p price]
            budget := s.budget - (setPrice p price).purchase_price
            num_position := s.num_position.inc (setPrice p price).position } := by
  cases cb <;> cases ct <;>
    by_cases h1 : s.check_no_duplicate_player (setPrice p price) <;>
    by_cases h2 : s.check_num_in_position (setPrice p price) <;>
    by_cases h3 : s.check_cost (setPrice p price) <;>
    by_cases h4 : s.check_num_per_team (setPrice p price) <;>
    simp_all [Squad.add_player]

/-- A failed `add_player` call leaves the squad unchanged. -/
lemma add_player_failure {s : Squad} {p : CandidatePlayer} {price : Option ℕ}
    {cb ct : Bool} (h : (s.add_player p price cb ct).1 = false) :
    (s.add_player p price cb ct).2 = s := by
  cases cb <;> cases ct <;>
    by_cases h1 : s.check_no_duplicate_player (setPrice p price) <;>
    by_cases h2 : s.check_num_in_position (setPrice p price) <;>
    by_cases h3 : s.check_cost (setPrice p price) <;>
    by_cases h4 : s.check_num_per_team (setPrice p price) <;>
    simp_all [Squad.add_player]

/-- The scan of `remove_player` removes exactly the first player carrying the
requested id, credits a nonnegative amount, and reports that player's
position. -/
lemma removeLoop_spec {pid : ℕ} {price : Option ℕ} {pn : ℕ → Option ℕ} :
    ∀ {l : List CandidatePlayer} {c : ℤ} {pos : Position} {l2 : List CandidatePlayer},
      removeLoop pid price pn l = some (c, pos, l2) →
      ∃ pre q suf, l = pre ++ q :: suf ∧ l2 = pre ++ suf ∧ q.player_id = pid
        ∧ pos = q.position ∧ (∀ r ∈ pre, r.player_id ≠ pid) ∧ 0 ≤ c
  | [], _, _, _, h => by simp [removeLoop] at h
  | q :: rest, c, pos, l2, h => by
    by_cases hq : q.player_id = pid
    · simp only [removeLoop] at h
      rw [if_pos hq] at h
      obtain ⟨hc, hpos, hl2⟩ := by simpa [Prod.ext_iff] using h.symm
      refine ⟨[], q, rest, by simp, by simp [hl2], hq, hpos, by simp, ?_⟩
      rcases price with _ | pr
      · simp [hc]
      · simp only [hc]
        split <;> simp
    · simp only [removeLoop] at h
      rw [if_neg hq] at h
      cases hrec : removeLoop pid price pn rest with
      | none => rw [hrec] at h; simp at h
      | some t =>
        obtain ⟨c2, pos2, rest2⟩ := t
        rw [hrec] at h
        obtain ⟨hc, hpos, hl2⟩ := by simpa [Prod.ext_iff] using h.symm
        obtain ⟨pre, q2, suf, hl, hl2b, hid, hp, hpre, hcnn⟩ := removeLoop_spec hrec
        refine ⟨q :: pre, q2, suf, by simp [hl], by simp [hl2, hl2b], hid,
          by simp [hpos, hp], ?_, by simp [hc, hcnn]⟩
        intro r hr
        rcases List.mem_cons.mp hr with hr | hr
        · subst hr; exact hq
        · exact hpre r hr


/-- `add_player` preserves the structural invariant. -/
lemma add_player_inv {s : Squad} (p : CandidatePlayer) (price : Option ℕ)
    (cb ct : Bool) (h : Inv s) : Inv (s.add_player p price cb ct).2 := by
  cases hr : (s.add_player p price cb ct).1 with
  | false => rwa [add_player_failure hr]
  | true =>
    obtain ⟨hdup, hquota, -, -, heq⟩ := add_player_success hr
    obtain ⟨hsync, hle, hnd⟩ := h
    rw [heq]
    set pl := setPrice p price with hpl
    refine ⟨?_, ?_, ?_⟩
    · obtain ⟨h1, h2, h3, h4⟩ := hsync
      cases hp : pl.position <;>
        refine ⟨?_, ?_, ?_, ?_⟩ <;>
          simp_all [actualCount, PosCount.inc, PosCount.get,
            List.countP_append, List.countP_cons]
    · intro pos
      by_cases hp : pl.position = pos
      · have hq : s.num_position.get pl.position < TOTAL_PER_POSITION pl.position := by
          simpa [Squad.check_num_in_position] using hquota
        have hs := countsSync_get hsync pos
        have heq2 : actualCount ⟨s.players ++ [pl], s.budget - (pl.purchase_price : ℤ),
            s.num_position.inc pl.position⟩ pos = actualCount s pos + 1 := by
          simp [actualCount, List.countP_append, List.countP_cons, hp]
        rw [heq2]
        rw [hp] at hq
        rw [hs] at hq
        push_cast
        omega
      · have heq2 : actualCount ⟨s.players ++ [pl], s.budget - (pl.purchase_price : ℤ),
            s.num_position.inc pl.position⟩ pos = actualCount s pos := by
          simp [actualCount, List.countP_append, List.countP_cons, hp]
        rw [heq2]
        exact hle pos
    · have hfresh : ∀ q ∈ s.players, q.player_id ≠ pl.player_id := by
        intro q hq
        have hd := hdup
        simp only [Squad.check_no_duplicate_player, List.all_eq_true, bne_iff_ne,
          ne_eq] at hd
        exact hd q hq
      simp only [idsNodup, List.map_append, List.map_cons, List.map_nil]
      rw [List.nodup_append]
      refine ⟨hnd, List.nodup_singleton _, ?_⟩
      intro a ha hb
      simp only [List.mem_singleton] at hb
      simp only [List.mem_map] at ha
      obtain ⟨q, hq, hqa⟩ := ha
      exact hfresh q hq (hqa.trans hb)

/-- `remove_player` preserves the structural invariant. -/
lemma remove_player_inv {s : Squad} (pid : ℕ) (price : Option ℕ)
    (pn : ℕ → Option ℕ) (h : Inv s) : Inv (s.remove_player pid price pn).2 := by
  obtain ⟨hsync, hle, hnd⟩ := h
  unfold Squad.remove_player
  cases hrl : removeLoop pid price pn s.players with
  | none => exact ⟨hsync, hle, hnd⟩
  | some t =>
    obtain ⟨c, pos, l2⟩ := t
    obtain ⟨pre, q, suf, hl, hl2, hid, hpos, hpre, hcnn⟩ := removeLoop_spec hrl
    have hsub : l2.Sublist s.players := by
      rw [hl, hl2]
      exact (List.Sublist.refl pre).append (List.sublist_cons_self q suf)
    have hcount : ∀ r, actualCount ⟨l2, s.budget + c, s.num_position.dec pos⟩ r
        + (if q.position = r then 1 else 0) = actualCount s r := by
      intro r
      by_cases hp : q.position = r <;>
        simp [actualCount, hl, hl2, List.countP_append, List.countP_cons, hp] <;>
        omega
    refine ⟨?_, ?_, ?_⟩
    · obtain ⟨h1, h2, h3, h4⟩ := hsync
      subst hpos
      have hc1 := hcount Position.GK
      have hc2 := hcount Position.DEF
      have hc3 := hcount Position.MID
      have hc4 := hcount Position.FWD
      simp only [actualCount] at h1 h2 h3 h4 hc1 hc2 hc3 hc4
      cases hq : q.position <;>
        rw [hq] at hc1 hc2 hc3 hc4 <;>
        simp at hc1 hc2 hc3 hc4 <;>
        refine ⟨?_, ?_, ?_, ?_⟩ <;>
        simp only [PosCount.dec, PosCount.get, actualCount] <;>
        omega
    · intro r
      have hmono := List.Sublist.countP_le (p := fun p => p.position == r) hsub
      have hler := hle r
      simp only [actualCount] at hler ⊢
      omega
    · have : (l2.map fun p => p.player_id).Sublist
          (s.players.map fun p => p.player_id) := List.Sublist.map _ hsub
      exact List.Nodup.sublist this hnd

/-- The empty squad satisfies the structural invariant. -/
lemma inv_empty : Inv Squad.empty := by
  refine ⟨⟨rfl, rfl, rfl, rfl⟩, ?_, List.nodup_nil⟩
  intro pos
  cases pos <;> simp [actualCount, Squad.empty, TOTAL_PER_POSITION]

/-- Every operation preserves the structural invariant. -/
lemma applyOp_inv {s : Squad} (op : Op) (h : Inv s) : Inv (applyOp s op) := by
  cases op with
  | add p price cb ct => exact add_player_inv p price cb ct h
  | remove pid price pn => exact remove_player_inv pid price pn h

/-- Invariance under a whole call sequence (from any invariant state). -/
lemma foldl_inv : ∀ (ops : List Op) (s : Squad), Inv s → Inv (ops.foldl applyOp s)
  | [], _, h => h
  | op :: rest, s, h => foldl_inv rest (applyOp s op) (applyOp_inv op h)

/-- Every squad reachable from the empty squad satisfies the invariant. -/
lemma runOps_inv (ops : List Op) : Inv (runOps ops) :=
  foldl_inv ops Squad.empty inv_empty

/-- A budget-checked `add_player` keeps the budget nonnegative. -/
lemma add_player_budget {s : Squad} (p : CandidatePlayer) (price : Option ℕ)
    (ct : Bool) (h : 0 ≤ s.budget) : 0 ≤ (s.add_player p price true ct).2.budget := by
  cases hr : (s.add_player p price true ct).1 with
  | false => rw [add_player_failure hr]; exact h
  | true =>
    obtain ⟨-, -, hcost, -, heq⟩ := add_player_success hr
    have hc := hcost rfl
    simp only [Squad.check_cost, decide_eq_true_eq] at hc
    rw [heq]
    simp only
    omega

/-- `remove_player` never decreases the budget. -/
lemma remove_player_budget {s : Squad} (pid : ℕ) (price : Option ℕ)
    (pn : ℕ → Option ℕ) (h : 0 ≤ s.budget) :
    0 ≤ (s.remove_player pid price pn).2.budget := by
  unfold Squad.remove_player
  cases hrl : removeLoop pid price pn s.players with
  | none => exact h
  | some t =>
    obtain ⟨c, pos, l2⟩ := t
    obtain ⟨-, -, -, -, -, -, -, -, hcnn⟩ := removeLoop_spec hrl
    simp only
    omega

/-- A team-checked `add_player` keeps every team's head-count at most 3. -/
lemma add_player_team {s : Squad} (p : CandidatePlayer) (price : Option ℕ)
    (cb : Bool) (h : ∀ t, teamCount s t ≤ 3) :
    ∀ t, teamCount (s.add_player p price cb true).2 t ≤ 3 := by
  intro t
  cases hr : (s.add_player p price cb true).1 with
  | false => rw [add_player_failure hr]; exact h t
  | true =>
    obtain ⟨-, -, -, hteam, heq⟩ := add_player_success hr
    have ht := hteam rfl
    simp only [Squad.check_num_per_team, decide_eq_true_eq] at ht
    rw [heq]
    by_cases htt : (setPrice p price).team = t
    · have hsame : teamCount s t < 3 := by
        simpa [teamCount, htt] using ht
      simp [teamCount, List.countP_append, List.countP_cons, htt] at hsame ⊢
      omega
    · have := h t
      simp [teamCount, List.countP_append, List.countP_cons, htt] at this ⊢
      omega

/-- `remove_player` never increases any team's head-count. -/
lemma remove_player_team {s : Squad} (pid : ℕ) (price : Option ℕ)
    (pn : ℕ → Option ℕ) (h : ∀ t, teamCount s t ≤ 3) :
    ∀ t, teamCount (s.remove_player pid price pn).2 t ≤ 3 := by
  intro t
  unfold Squad.remove_player
  cases hrl : removeLoop pid price pn s.players with
  | none => exact h t
  | some tr =>
    obtain ⟨c, pos, l2⟩ := tr
    obtain ⟨pre, q, suf, hl, hl2, -, -, -, -⟩ := removeLoop_spec hrl
    have hsub : l2.Sublist s.players := by
      rw [hl, hl2]
      exact (List.Sublist.refl pre).append (List.sublist_cons_self q suf)
    have hmono := List.Sublist.countP_le (p := fun p => p.team == t) hsub
    have := h t
    simp only [teamCount] at this ⊢
    omega

/-- Budget nonnegativity over a budget-checked call sequence. -/
lemma foldl_budget : ∀ (ops : List Op) (s : Squad), 0 ≤ s.budget →
    addsBudgetChecked ops = true → 0 ≤ (ops.foldl applyOp s).budget
  | [], _, h, _ => h
  | .add p price cb ct :: rest, s, h, hbc => by
    simp only [addsBudgetChecked, Bool.and_eq_true] at hbc
    obtain ⟨hcb, hrest⟩ := hbc
    subst hcb
    exact foldl_budget rest _ (add_player_budget p price ct h) hrest
  | .remove pid price pn :: rest, s, h, hbc =>
    foldl_budget rest _ (remove_player_budget pid price pn h) hbc

/-- Team bound over a team-checked call sequence. -/
lemma foldl_team : ∀ (ops : List Op) (s : Squad), (∀ t, teamCount s t ≤ 3) →
    addsTeamChecked ops = true → ∀ t, teamCount (ops.foldl applyOp s) t ≤ 3
  | [], _, h, _ => h
  | .add p price cb ct :: rest, s, h, htc => by
    simp only [addsTeamChecked, Bool.and_eq_true] at htc
    obtain ⟨hct, hrest⟩ := htc
    subst hct
    exact foldl_team rest _ (add_player_team p price cb h) hrest
  | .remove pid price pn :: rest, s, h, htc =>
    foldl_team rest _ (remove_player_team pid price pn h) htc

/-- The concrete call sequence refuting claim C1 as stated: five successful
`add_player` calls that leave team 1 with four players (the third added with
all checks on) and the budget at −1400. -/
def cexC1Ops : List Op :=
  [.add ⟨1, 1, .GK, 100⟩ none true true,
   .add ⟨2, 1, .DEF, 100⟩ none true true,
   .add ⟨3, 1, .DEF, 100⟩ none true true,
   .add ⟨4, 1, .DEF, 100⟩ none true false,
   .add ⟨5, 2, .MID, 2000⟩ none false true]

/-- A fully checked call sequence used to instantiate the amended claim C1. -/
def wC1Ops : List Op :=
  [.add ⟨1, 1, .GK, 100⟩ none true true,
   .add ⟨2, 2, .DEF, 200⟩ none true true,
   .remove 1 none (fun _ => some 120)]

/-- C1 (counterexample): the claimed invariant fails on the code.  Starting
from the empty squad, the concrete sequence `cexC1Ops` of five `add_player`
calls all return success, yet afterwards four players share team 1 (the third
of them accepted with `check_team=True`, since `check_num_per_team` only
rejects a 4th player of a team) and the budget is negative (the last call was
made with `check_budget=False`, as `get_starting_squad` does). -/
theorem C1_counterexample :
    allSucceed cexC1Ops Squad.empty = true
      ∧ (runOps cexC1Ops).budget < 0
      ∧ 2 < teamCount (runOps cexC1Ops) 1 := by
  refine ⟨by decide, by decide, by decide⟩

/-- C1 (amended): for every sequence of `add_player`/`remove_player` calls
starting from an empty `Squad`, the count for each position never exceeds its
quota (GK 2, DEF 5, MID 5, FWD 3) and no two players in the squad have the
same `player_id`; moreover, if every add in the sequence was made with
`check_team=True` then at most 3 players share a team, and if every add was
made with `check_budget=True` then the budget is never negative. -/
theorem C1_amended (ops : List Op) :
    (∀ pos, (actualCount (runOps ops) pos : ℤ) ≤ TOTAL_PER_POSITION pos)
      ∧ idsNodup (runOps ops)
      ∧ (addsTeamChecked ops = true → ∀ t, teamCount (runOps ops) t ≤ 3)
      ∧ (addsBudgetChecked ops = true → 0 ≤ (runOps ops).budget) := by
  obtain ⟨hsync, hle, hnd⟩ := runOps_inv ops
  refine ⟨hle, hnd, ?_, ?_⟩
  · intro h
    exact foldl_team ops Squad.empty (fun t => by simp [teamCount, Squad.empty]) h
  · intro h
    exact foldl_budget ops Squad.empty (by simp [Squad.empty]) h

/-- C1 (witness): the amended claim instantiated at the concrete fully checked
sequence `wC1Ops`, with both checkedness side conditions discharged. -/
theorem C1_amended_witness :
    (∀ pos, (actualCount (runOps wC1Ops) pos : ℤ) ≤ TOTAL_PER_POSITION pos)
      ∧ idsNodup (runOps wC1Ops)
      ∧ (∀ t, teamCount (runOps wC1Ops) t ≤ 3)
      ∧ 0 ≤ (runOps wC1Ops).budget := by
  obtain ⟨h1, h2, h3, h4⟩ := C1_amended wC1Ops
  exact ⟨h1, h2, h3 (by decide), h4 (by decide)⟩

/-! ## Claim C8: `add_player` checks, frame on failure, effects on success -/

lemma check_no_duplicate_iff {s : Squad} {pl : CandidatePlayer} :
    s.check_no_duplicate_player pl = true ↔
      ∀ q ∈ s.players, q.player_id ≠ pl.player_id := by
  simp [Squad.check_no_duplicate_player]

lemma check_num_in_position_iff {s : Squad} {pl : CandidatePlayer}
    (hsync : countsSync s) :
    s.check_num_in_position pl = true ↔
      (actualCount s pl.position : ℤ) < TOTAL_PER_POSITION pl.position := by
  simp [Squad.check_num_in_position, countsSync_get hsync]

lemma check_cost_iff {s : Squad} {pl : CandidatePlayer} :
    s.check_cost pl = true ↔ (pl.purchase_price : ℤ) ≤ s.budget := by
  simp [Squad.check_cost]

lemma check_num_per_team_iff {s : Squad} {pl : CandidatePlayer} :
    s.check_num_per_team pl = true ↔ teamCount s pl.team < 3 := by
  simp [Squad.check_num_per_team, teamCount]

/-- C8: on a squad whose cached counters agree with its player list,
`add_player` succeeds exactly when the candidate (after the optional price
override) passes the duplicate-id check, the position-quota check, the budget
check (only when `check_budget` is set) and the team-quota check (only when
`check_team` is set) — this is the cascade order of the source; on failure the
squad is completely unchanged, and on success exactly the candidate is
appended, its position count incremented and its price debited. -/
theorem C8_add_player_contract (s : Squad) (p : CandidatePlayer)
    (price : Option ℕ) (cb ct : Bool) (hsync : countsSync s) :
    ((s.add_player p price cb ct).1 = true ↔
      ((∀ q ∈ s.players, q.player_id ≠ (setPrice p price).player_id)
        ∧ (actualCount s (setPrice p price).position : ℤ)
            < TOTAL_PER_POSITION (setPrice p price).position
        ∧ (cb = true → ((setPrice p price).purchase_price : ℤ) ≤ s.budget)
        ∧ (ct = true → teamCount s (setPrice p price).team < 3)))
    ∧ ((s.add_player p price cb ct).1 = false → (s.add_player p price cb ct).2 = s)
    ∧ ((s.add_player p price cb ct).1 = true →
        (s.add_player p price cb ct).2.players = s.players ++ [setPrice p price]
        ∧ (s.add_player p price cb ct).2.budget
            = s.budget - (setPrice p price).purchase_price
        ∧ actualCount (s.add_player p price cb ct).2 (setPrice p price).position
            = actualCount s (setPrice p price).position + 1) := by
  set pl := setPrice p price with hpl
  refine ⟨?_, fun hf => add_player_failure hf, fun hs => ?_⟩
  · constructor
    · intro hs
      obtain ⟨h1, h2, h3, h4, -⟩ := add_player_success hs
      exact ⟨check_no_duplicate_iff.mp h1, (check_num_in_position_iff hsync).mp h2,
        fun hcb => check_cost_iff.mp (h3 hcb),
        fun hct => check_num_per_team_iff.mp (h4 hct)⟩
    · rintro ⟨h1, h2, h3, h4⟩
      have b1 : s.check_no_duplicate_player pl = true := check_no_duplicate_iff.mpr h1
      have b2 : s.check_num_in_position pl = true :=
        (check_num_in_position_iff hsync).mpr h2
      have b3 : cb = true → s.check_cost pl = true :=
        fun hcb => check_cost_iff.mpr (h3 hcb)
      have b4 : ct = true → s.check_num_per_team pl = true :=
        fun hct => check_num_per_team_iff.mpr (h4 hct)
      cases cb with
      | false =>
        cases ct with
        | false => simp [Squad.add_player, ← hpl, b1, b2]
        | true => simp [Squad.add_player, ← hpl, b1, b2, b4 rfl]
      | true =>
        cases ct with
        | false => simp [Squad.add_player, ← hpl, b1, b2, b3 rfl]
        | true => simp [Squad.add_player, ← hpl, b1, b2, b3 rfl, b4 rfl]
  · obtain ⟨-, -, -, -, heq⟩ := add_player_success hs
    rw [heq]
    refine ⟨rfl, rfl, ?_⟩
    simp [actualCount, List.countP_append, List.countP_cons]

/-- C8 (witness): the contract instantiated at a concrete successful add on
the empty squad. -/
theorem C8_add_player_contract_witness :
    (Squad.empty.add_player ⟨1, 1, .GK, 100⟩ none true true).1 = true
      ∧ (Squad.empty.add_player ⟨1, 1, .GK, 100⟩ none true true).2.players
          = [⟨1, 1, .GK, 100⟩] := by
  have h := C8_add_player_contract Squad.empty ⟨1, 1, .GK, 100⟩ none true true
    (by decide)
  have hsucc : (Squad.empty.add_player ⟨1, 1, .GK, 100⟩ none true true).1 = true :=
    h.1.mpr ⟨by decide, by decide, fun _ => by decide, fun _ => by decide⟩
  refine ⟨hsucc, ?_⟩
  have := (h.2.2 hsucc).1
  simpa [Squad.empty, setPrice] using this

/-! ## Claim C7: `remove_player` sale price and position decrement -/

/-- If a player is in the list and ids are unique, the `remove_player` scan
finds exactly that player and (with no explicit price) credits its sell
price. -/
lemma removeLoop_none_of_mem_nodup {p : CandidatePlayer} (pn : ℕ → Option ℕ) :
    ∀ {l : List CandidatePlayer}, p ∈ l → (l.map fun q => q.player_id).Nodup →
      ∃ l2, removeLoop p.player_id none pn l
        = some ((get_sell_price_for_player p (pn p.player_id) : ℤ), p.position, l2)
  | [], hp, _ => absurd hp (List.not_mem_nil p)
  | q :: rest, hp, hnd => by
    by_cases hq : q.player_id = p.player_id
    · have hqp : q = p := by
        rcases List.mem_cons.mp hp with h | h
        · exact h.symm
        · exfalso
          have : p.player_id ∈ rest.map fun r => r.player_id :=
            List.mem_map_of_mem _ h
          rw [List.map_cons, List.nodup_cons] at hnd
          exact hnd.1 (hq ▸ this)
      subst hqp
      exact ⟨rest, by simp [removeLoop]⟩
    · have hprest : p ∈ rest := by
        rcases List.mem_cons.mp hp with h | h
        · exact absurd (congrArg CandidatePlayer.player_id h.symm) hq
        · exact h
      rw [List.map_cons, List.nodup_cons] at hnd
      obtain ⟨l2, hl2⟩ := removeLoop_none_of_mem_nodup pn hprest hnd.2
      refine ⟨q :: l2, ?_⟩
      simp only [removeLoop]
      rw [if_neg hq, hl2]

/-- C7: for a player `p` of the squad, `remove_player` without an explicit
price succeeds, credits the current market price `v` when `v ≤` purchase
price and the floored midpoint of purchase and current price otherwise, and
decrements exactly `p`'s position counter.  Hypotheses: `p` is in the squad,
ids are unique, and the database lookup yields a positive current price
(`if not price_now:` would treat a 0 price as missing data). -/
theorem C7_remove_player_sale (s : Squad) (p : CandidatePlayer)
    (pn : ℕ → Option ℕ) (v : ℕ) (hp : p ∈ s.players) (hnd : idsNodup s)
    (hv : pn p.player_id = some v) (hvpos : 0 < v) :
    (s.remove_player p.player_id none pn).1 = true
    ∧ (s.remove_player p.player_id none pn).2.budget
        = s.budget + (if v ≤ p.purchase_price then (v : ℤ)
            else (((v + p.purchase_price) / 2 : ℕ) : ℤ))
    ∧ (s.remove_player p.player_id none pn).2.num_position.get p.position
        = s.num_position.get p.position - 1 := by
  obtain ⟨l2, hloop⟩ := removeLoop_none_of_mem_nodup pn hp hnd
  have hv0 : v ≠ 0 := by omega
  have hsell : (get_sell_price_for_player p (pn p.player_id) : ℤ)
      = if v ≤ p.purchase_price then (v : ℤ)
        else (((v + p.purchase_price) / 2 : ℕ) : ℤ) := by
    rw [hv]
    by_cases hvb : v ≤ p.purchase_price
    · have hlt : ¬ p.purchase_price < v := by omega
      simp [get_sell_price_for_player, hv0, hvb, hlt]
    · have hlt : p.purchase_price < v := by omega
      simp [get_sell_price_for_player, hv0, hvb, hlt]
  unfold Squad.remove_player
  rw [hloop]
  refine ⟨rfl, by simpa using hsell, ?_⟩
  simp [PosCount.get_dec]

/-- C7 (witness): a concrete one-player squad; market price 60 exceeds the
purchase price 50, so the credited amount is the floored midpoint 55. -/
theorem C7_remove_player_sale_witness :
    ((⟨[⟨7, 3, .MID, 50⟩], 500, ⟨0, 0, 1, 0⟩⟩ : Squad).remove_player 7 none
        (fun _ => some 60)).1 = true
    ∧ ((⟨[⟨7, 3, .MID, 50⟩], 500, ⟨0, 0, 1, 0⟩⟩ : Squad).remove_player 7 none
        (fun _ => some 60)).2.budget
        = 500 + (if (60 : ℕ) ≤ 50 then ((60 : ℕ) : ℤ)
            else ((((60 : ℕ) + 50) / 2 : ℕ) : ℤ))
    ∧ ((⟨[⟨7, 3, .MID, 50⟩], 500, ⟨0, 0, 1, 0⟩⟩ : Squad).remove_player 7 none
        (fun _ => some 60)).2.num_position.get .MID
        = (⟨[⟨7, 3, .MID, 50⟩], 500, ⟨0, 0, 1, 0⟩⟩ : Squad).num_position.get .MID
            - 1 :=
  C7_remove_player_sale ⟨[⟨7, 3, .MID, 50⟩], 500, ⟨0, 0, 1, 0⟩⟩ ⟨7, 3, .MID, 50⟩
    (fun _ => some 60) 60 (by decide) (by decide) rfl (by decide)

/-! ## Claim C2: `calc_points_hit` -/

/-- A transfer directive: the `num_transfers` argument threaded through
`optimization_utils.py`.  It is an int, or one of the strings `"W"`, `"F"`,
`"Tx"`, `"Bx"` (`x` a digit, the paid-transfer component played along with a
triple-captain or bench-boost chip). -/
inductive NumTransfers where
  | int (n : ℕ)
  | W
  | F
  | T (n : ℕ)
  | B (n : ℕ)
deriving DecidableEq, Repr

/-- `calc_points_hit(num_transfers, free_transfers)`: 0 for wildcard/free hit,
otherwise 4 points per transfer beyond the free allowance.  A `"Tx"`/`"Bx"`
code is only recognised when it has exactly two characters (`x` a single
digit); any other string raises `RuntimeError`, modelled as `none`. -/
def calc_points_hit (num_transfers : NumTransfers) (free_transfers : ℕ) : Option ℤ :=
  match num_transfers with
  | .W => some 0
  | .F => some 0
  | .int n => some (max 0 (4 * ((n : ℤ) - (free_transfers : ℤ))))
  | .T n =>
    if n < 10 then some (max 0 (4 * ((n : ℤ) - (free_transfers : ℤ)))) else none
  | .B n =>
    if n < 10 then some (max 0 (4 * ((n : ℤ) - (free_transfers : ℤ)))) else none

/-- C2: `calc_points_hit` returns 0 for Wildcard and FreeHit; for an integer
count `n` or a well-formed `Tn`/`Bn` chip code it returns
`max(0, 4*(n - f))`; in particular it returns 0 for 0 transfers and equals
`4*(n - f)` exactly when `n > f`. -/
theorem C2_calc_points_hit (f n : ℕ) :
    calc_points_hit .W f = some 0
    ∧ calc_points_hit .F f = some 0
    ∧ calc_points_hit (.int n) f = some (max 0 (4 * ((n : ℤ) - (f : ℤ))))
    ∧ (n < 10 →
        calc_points_hit (.T n) f = some (max 0 (4 * ((n : ℤ) - (f : ℤ))))
        ∧ calc_points_hit (.B n) f = some (max 0 (4 * ((n : ℤ) - (f : ℤ)))))
    ∧ calc_points_hit (.int 0) f = some 0
    ∧ (f < n → calc_points_hit (.int n) f = some (4 * ((n : ℤ) - (f : ℤ)))) := by
  refine ⟨rfl, rfl, rfl, fun h => ⟨by simp [calc_points_hit, h], by simp [calc_points_hit, h]⟩, ?_, ?_⟩
  · simp only [calc_points_hit, Option.some.injEq]
    omega
  · intro h
    simp only [calc_points_hit, Option.some.injEq]
    omega

/-- C2 (witness): the chip-code and strictly-paid cases at `n = 2`, `f = 1`. -/
theorem C2_calc_points_hit_witness :
    calc_points_hit (.T 2) 1 = some (max 0 (4 * ((2 : ℤ) - (1 : ℤ))))
    ∧ calc_points_hit (.int 2) 1 = some (4 * ((2 : ℤ) - (1 : ℤ))) :=
  ⟨((C2_calc_points_hit 1 2).2.2.2.1 (by decide)).1,
   (C2_calc_points_hit 1 2).2.2.2.2.2 (by decide)⟩

/-! ## Claim C3: `count_expected_outputs` -/

/-- The recursion of `count_expected_outputs`, made structural on an explicit
fuel argument (the source recursion descends on `max_week - week`; the fuel is
set to exactly that and never runs out on inputs where the source
terminates).  The base case returns the branch count of the final week: 3
plain transfer choices plus 1 per available whole-squad chip plus 3 per
available scoring chip; an internal week multiplies by the 3 plain choices and
adds the chip sub-trees. -/
def count_expected_outputs_fuel (fuel : ℕ) (week max_week : ℕ)
    (can_play_wildcard can_play_free_hit : Bool)
    (can_play_triple_captain can_play_bench_boost : Bool) : ℕ :=
  match fuel with
  | 0 => 0
  | fuel + 1 =>
    let week := week + 1
    if week = max_week then
      3 + (if can_play_wildcard then 1 else 0) + (if can_play_free_hit then 1 else 0)
        + 3 * (if can_play_triple_captain then 1 else 0)
        + 3 * (if can_play_bench_boost then 1 else 0)
    else
      3 * (count_expected_outputs_fuel fuel week max_week can_play_wildcard
              can_play_free_hit can_play_triple_captain can_play_bench_boost
            + (if can_play_triple_captain then
                count_expected_outputs_fuel fuel week max_week can_play_wildcard
                  can_play_free_hit false can_play_bench_boost
              else 0)
            + (if can_play_bench_boost then
                count_expected_outputs_fuel fuel week max_week can_play_wildcard
                  can_play_free_hit can_play_triple_captain false
              else 0))
        + (if can_play_wildcard then
            count_expected_outputs_fuel fuel week max_week false can_play_free_hit
              can_play_triple_captain can_play_bench_boost
          else 0)
        + (if can_play_free_hit then
            count_expected_outputs_fuel fuel week max_week can_play_wildcard false
              can_play_triple_captain can_play_bench_boost
          else 0)

/-- `count_expected_outputs(week, max_week, ...)`: expected number of leaf
nodes of the strategy tree. -/
def count_expected_outputs (week max_week : ℕ)
    (can_play_wildcard can_play_free_hit : Bool)
    (can_play_triple_captain can_play_bench_boost : Bool) : ℕ :=
  count_expected_outputs_fuel (max_week - week) week max_week can_play_wildcard
    can_play_free_hit can_play_triple_captain can_play_bench_boost

/-- C3: with no chips enabled the expected-leaf-count oracle counts exactly
`3^N` leaves for every horizon length `N` in 1..5. -/
theorem C3_count_expected_outputs (N : ℕ) (h1 : 1 ≤ N) (h5 : N ≤ 5) :
    count_expected_outputs 0 N false false false false = 3 ^ N := by
  interval_cases N <;> decide

/-- C3 (witness): the oracle counts 27 leaves for a 3-week horizon. -/
theorem C3_count_expected_outputs_witness :
    count_expected_outputs 0 3 false false false false = 3 ^ 3 :=
  C3_count_expected_outputs 3 (by decide) (by decide)

/-! ## Claim C10: completeness forces exact per-position counts -/

/-- The fixed formation list of `squad.py`. -/
def FORMATIONS : List (ℕ × ℕ × ℕ) :=
  [(3, 4, 3), (3, 5, 2), (4, 3, 3), (4, 4, 2), (4, 5, 1), (5, 4, 1), (5, 3, 2)]

/-- The per-position buckets built at the top of `optimize_subs`: the squad's
players of one position, sorted by predicted points for the gameweek in
descending order (`pts` is the predicted-points lookup, already defaulting to
0 for a player without a fixture).  `apply_formation` starts the first
`formation[i]` players of each outfield bucket; `optimize_subs` unconditionally
starts `bucket[0]` and benches `bucket[1]` of the GK bucket. -/
def player_dict {α : Type} [LinearOrder α] (s : Squad)
    (pts : CandidatePlayer → α) (pos : Position) : List CandidatePlayer :=
  (s.players.filter fun p => p.position == pos).insertionSort
    fun a b => pts b ≤ pts a

/-- C10: on every squad reachable by `add_player`/`remove_player` calls on
which `is_complete()` holds, each position holds exactly its quota (2 GK,
5 DEF, 5 MID, 3 FWD); hence the GK bucket of `optimize_subs` has (at least)
the two entries it indexes, and for every formation in the fixed 7-element
list each outfield bucket has at least as many players as `apply_formation`
selects from it. -/
theorem C10_complete_counts {α : Type} [LinearOrder α] (ops : List Op)
    (pts : CandidatePlayer → α) (hc : (runOps ops).is_complete = true) :
    (∀ pos, (actualCount (runOps ops) pos : ℤ) = TOTAL_PER_POSITION pos)
    ∧ 2 ≤ (player_dict (runOps ops) pts .GK).length
    ∧ ∀ fm ∈ FORMATIONS,
        fm.1 ≤ (player_dict (runOps ops) pts .DEF).length
        ∧ fm.2.1 ≤ (player_dict (runOps ops) pts .MID).length
        ∧ fm.2.2 ≤ (player_dict (runOps ops) pts .FWD).length := by
  obtain ⟨hsync, hle, -⟩ := runOps_inv ops
  obtain ⟨h1, h2, h3, h4⟩ := hsync
  simp only [Squad.is_complete, beq_iff_eq] at hc
  have q1 : (actualCount (runOps ops) .GK : ℤ) ≤ 2 := by
    simpa [TOTAL_PER_POSITION] using hle .GK
  have q2 : (actualCount (runOps ops) .DEF : ℤ) ≤ 5 := by
    simpa [TOTAL_PER_POSITION] using hle .DEF
  have q3 : (actualCount (runOps ops) .MID : ℤ) ≤ 5 := by
    simpa [TOTAL_PER_POSITION] using hle .MID
  have q4 : (actualCount (runOps ops) .FWD : ℤ) ≤ 3 := by
    simpa [TOTAL_PER_POSITION] using hle .FWD
  have eGK : actualCount (runOps ops) .GK = 2 := by omega
  have eDEF : actualCount (runOps ops) .DEF = 5 := by omega
  have eMID : actualCount (runOps ops) .MID = 5 := by omega
  have eFWD : actualCount (runOps ops) .FWD = 3 := by omega
  have hlen : ∀ pos, (player_dict (runOps ops) pts pos).length
      = actualCount (runOps ops) pos := by
    intro pos
    simp [player_dict, List.length_insertionSort, actualCount,
      ← List.countP_eq_length_filter]
  refine ⟨?_, ?_, ?_⟩
  · intro pos
    cases pos <;> simp [TOTAL_PER_POSITION, eGK, eDEF, eMID, eFWD]
  · rw [hlen, eGK]
  · intro fm hfm
    rw [hlen, hlen, hlen, eDEF, eMID, eFWD]
    fin_cases hfm <;> refine ⟨by norm_num, by norm_num, by norm_num⟩

/-- A fully checked op sequence building a complete 15-player squad. -/
def wC10Ops : List Op :=
  [.add ⟨1, 1, .GK, 10⟩ none true true,
   .add ⟨2, 1, .GK, 10⟩ none true true,
   .add ⟨3, 1, .DEF, 10⟩ none true true,
   .add ⟨4, 2, .DEF, 10⟩ none true true,
   .add ⟨5, 2, .DEF, 10⟩ none true true,
   .add ⟨6, 2, .DEF, 10⟩ none true true,
   .add ⟨7, 3, .DEF, 10⟩ none true true,
   .add ⟨8, 3, .MID, 10⟩ none true true,
   .add ⟨9, 3, .MID, 10⟩ none true true,
   .add ⟨10, 4, .MID, 10⟩ none true true,
   .add ⟨11, 4, .MID, 10⟩ none true true,
   .add ⟨12, 4, .MID, 10⟩ none true true,
   .add ⟨13, 5, .FWD, 10⟩ none true true,
   .add ⟨14, 5, .FWD, 10⟩ none true true,
   .add ⟨15, 5, .FWD, 10⟩ none true true]

/-- C10 (witness): the complete concrete squad `wC10Ops` has exactly the quota
in every position and a 2-element GK bucket. -/
theorem C10_complete_counts_witness :
    (∀ pos, (actualCount (runOps wC10Ops) pos : ℤ) = TOTAL_PER_POSITION pos)
    ∧ 2 ≤ (player_dict (runOps wC10Ops) (fun _ => (0 : ℤ)) .GK).length := by
  obtain ⟨ha, hb, -⟩ :=
    C10_complete_counts (α := ℤ) wC10Ops (fun _ => (0 : ℤ)) (by decide)
  exact ⟨ha, hb⟩

/-! ## Claim C6: `find_best_strat_from_json` -/

/-- A persisted leaf record, as loaded from one strategy json file: the
dash-joined directive sequence that the filename encodes, and its
`total_score` (the only field the selector reads). -/
structure StratRecord where
  sid : String
  total_score : ℚ
deriving DecidableEq, Repr

/-- The scan of `find_best_strat_from_json`: walk the directory listing in
order, skip files not carrying the prediction tag, and keep the record
whenever its `total_score` strictly exceeds the running best, which starts at
`best_score = 0` with `best_strat = None`.  An entry is a pair of the tag
encoded in the filename and the parsed record. -/
def findBestLoop (tag : String) :
    List (String × StratRecord) → ℚ → Option StratRecord → Option StratRecord
  | [], _, best => best
  | (t, r) :: rest, best_score, best =>
    if t = tag then
      if best_score < r.total_score then findBestLoop tag rest r.total_score (some r)
      else findBestLoop tag rest best_score best
    else findBestLoop tag rest best_score best

/-- `find_best_strat_from_json(tag)` over the modelled directory listing. -/
def find_best_strat_from_json (tag : String)
    (files : List (String × StratRecord)) : Option StratRecord :=
  findBestLoop tag files 0 none

/-- C6 (counterexample): a non-empty listing whose only record carries the
current tag but has `total_score = 0`; because the running best starts at 0
and the comparison is strict, the selector returns nothing instead of that
maximal record. -/
theorem C6_counterexample :
    find_best_strat_from_json "tag" [("tag", ⟨"0-0", 0⟩)] = none
    ∧ ("tag", (⟨"0-0", 0⟩ : StratRecord))
        ∈ [("tag", (⟨"0-0", 0⟩ : StratRecord))] := by
  exact ⟨by decide, by decide⟩

lemma findBestLoop_spec (tag : String) :
    ∀ (files : List (String × StratRecord)) (bs : ℚ) (best : Option StratRecord),
      (findBestLoop tag files bs best = best
          ∧ ∀ e ∈ files, e.1 = tag → e.2.total_score ≤ bs)
      ∨ (∃ r, findBestLoop tag files bs best = some r ∧ bs < r.total_score
          ∧ (∃ e ∈ files, e.1 = tag ∧ e.2 = r)
          ∧ ∀ e ∈ files, e.1 = tag → e.2.total_score ≤ r.total_score)
  | [], bs, best => by simp [findBestLoop]
  | (t, r) :: rest, bs, best => by
    by_cases ht : t = tag
    · by_cases hlt : bs < r.total_score
      · rcases findBestLoop_spec tag rest r.total_score (some r) with
          ⟨heq, hall⟩ | ⟨r2, heq, hgt, ⟨e, he, hetag, her⟩, hall⟩
        · right
          refine ⟨r, ?_, hlt, ⟨(t, r), by simp, ht, rfl⟩, ?_⟩
          · simp [findBestLoop, ht, hlt, heq]
          · intro e he hetag
            rcases List.mem_cons.mp he with he | he
            · subst he; rfl
            · exact hall e he hetag
        · right
          refine ⟨r2, ?_, lt_trans hlt hgt, ⟨e, List.mem_cons_of_mem _ he, hetag, her⟩, ?_⟩
          · simp [findBestLoop, ht, hlt, heq]
          · intro e2 he2 htag2
            rcases List.mem_cons.mp he2 with he2 | he2
            · subst he2; exact le_of_lt hgt
            · exact hall e2 he2 htag2
      · rcases findBestLoop_spec tag rest bs best with
          ⟨heq, hall⟩ | ⟨r2, heq, hgt, ⟨e, he, hetag, her⟩, hall⟩
        · left
          refine ⟨by simp [findBestLoop, ht, hlt, heq], ?_⟩
          intro e he hetag
          rcases List.mem_cons.mp he with he | he
          · subst he; exact le_of_not_lt hlt
          · exact hall e he hetag
        · right
          refine ⟨r2, by simp [findBestLoop, ht, hlt, heq], hgt,
            ⟨e, List.mem_cons_of_mem _ he, hetag, her⟩, ?_⟩
          intro e2 he2 htag2
          rcases List.mem_cons.mp he2 with he2 | he2
          · subst he2
            exact le_trans (le_of_not_lt hlt) (le_of_lt hgt)
          · exact hall e2 he2 htag2
    · rcases findBestLoop_spec tag rest bs best with
        ⟨heq, hall⟩ | ⟨r2, heq, hgt, ⟨e, he, hetag, her⟩, hall⟩
      · left
        refine ⟨by simp [findBestLoop, ht, heq], ?_⟩
        intro e he hetag
        rcases List.mem_cons.mp he with he | he
        · subst he; exact absurd hetag ht
        · exact hall e he hetag
      · right
        refine ⟨r2, by simp [findBestLoop, ht, heq], hgt,
          ⟨e, List.mem_cons_of_mem _ he, hetag, her⟩, ?_⟩
        intro e2 he2 htag2
        rcases List.mem_cons.mp he2 with he2 | he2
        · subst he2; exact absurd htag2 ht
        · exact hall e2 he2 htag2

/-- C6 (amended): provided some record carrying the current tag has a strictly
positive `total_score`, the selector returns a record of that tag whose
`total_score` is maximal among all records of that tag (and positive);
otherwise it can return nothing, because the running best starts at 0 and the
comparison is strict. -/
theorem C6_find_best_strat (tag : String) (files : List (String × StratRecord))
    (h : ∃ e ∈ files, e.1 = tag ∧ 0 < e.2.total_score) :
    ∃ r, find_best_strat_from_json tag files = some r
      ∧ 0 < r.total_score
      ∧ (∃ e ∈ files, e.1 = tag ∧ e.2 = r)
      ∧ ∀ e ∈ files, e.1 = tag → e.2.total_score ≤ r.total_score := by
  rcases findBestLoop_spec tag files 0 none with ⟨heq, hall⟩ | ⟨r, heq, hgt, hsrc, hall⟩
  · obtain ⟨e, he, hetag, hpos⟩ := h
    exact absurd (hall e he hetag) (not_le.mpr hpos)
  · exact ⟨r, heq, hgt, hsrc, hall⟩

/-- C6 (witness): the amended selector property at a concrete two-record
listing with a positive-score record of the requested tag. -/
theorem C6_find_best_strat_witness :
    ∃ r, find_best_strat_from_json "t"
        [("other", ⟨"0-0", 9⟩), ("t", ⟨"1-0", 5⟩), ("t", ⟨"0-0", 2⟩)] = some r
      ∧ 0 < r.total_score
      ∧ (∃ e ∈ [("other", (⟨"0-0", 9⟩ : StratRecord)), ("t", ⟨"1-0", 5⟩),
            ("t", ⟨"0-0", 2⟩)], e.1 = "t" ∧ e.2 = r)
      ∧ ∀ e ∈ [("other", (⟨"0-0", 9⟩ : StratRecord)), ("t", ⟨"1-0", 5⟩),
            ("t", ⟨"0-0", 2⟩)], e.1 = "t" → e.2.total_score ≤ r.total_score :=
  C6_find_best_strat "t"
    [("other", ⟨"0-0", 9⟩), ("t", ⟨"1-0", 5⟩), ("t", ⟨"0-0", 2⟩)]
    ⟨("t", ⟨"1-0", 5⟩), by decide, by decide, by decide⟩

/-! ## Claim C5: `apply_strategy` free-hit snapshot and restore

The gameweek loop of `apply_strategy`, with the per-directive squad
transformations abstracted: `stepFn d gwRange squad` stands for the squad
produced by `make_optimum_single_transfer` / `make_optimum_double_transfer` /
`make_random_transfers` for directive `d` over the remaining gameweeks, and
`rebuild gws squad` stands for the squad produced by `make_new_squad` for a
wildcard or free hit (its budget argument - `get_squad_value` of the squad
being replaced - is absorbed into the abstract function).  A `0`, `"T0"` or
`"B0"` directive leaves the squad untouched.  What is modelled concretely is
exactly the state flow of the loop: the `squad_before_free_hit` snapshot taken
at the top of the `"F"` branch, the rebuild over that gameweek only, and the
restore (with the snapshot cleared) at the top of the next iteration. -/

/-- One gameweek's directive dispatch: next squad and the free-hit snapshot. -/
def strategyStep (stepFn : NumTransfers → List ℕ → Squad → Squad)
    (rebuild : List ℕ → Squad → Squad) (gw : ℕ) (d : NumTransfers)
    (gwRange : List ℕ) (cur : Squad) : Squad × Option Squad :=
  match d with
  | .F => (rebuild [gw] cur, some cur)
  | .W => (rebuild gwRange cur, none)
  | .int 0 => (cur, none)
  | .T 0 => (cur, none)
  | .B 0 => (cur, none)
  | d => (stepFn d gwRange cur, none)

/-- The squad in effect at each gameweek of the plan, immediately before that
gameweek's directive is applied (i.e. after the free-hit restore step at the
top of the loop body). -/
def apply_strategy_squads (stepFn : NumTransfers → List ℕ → Squad → Squad)
    (rebuild : List ℕ → Squad → Squad) :
    List (ℕ × NumTransfers) → Squad → Option Squad → List Squad
  | [], _, _ => []
  | (gw, d) :: rest, cur0, snap =>
    let cur := snap.getD cur0
    let next := strategyStep stepFn rebuild gw d (gw :: rest.map Prod.fst) cur
    cur :: apply_strategy_squads stepFn rebuild rest next.1 next.2

lemma apply_strategy_squads_free_hit_aux
    (stepFn : NumTransfers → List ℕ → Squad → Squad)
    (rebuild : List ℕ → Squad → Squad) :
    ∀ (plan : List (ℕ × NumTransfers)) (start : Squad) (snap : Option Squad)
      (i g : ℕ), plan.get? i = some (g, .F) → i + 1 < plan.length →
      (apply_strategy_squads stepFn rebuild plan start snap).get? (i + 1)
        = (apply_strategy_squads stepFn rebuild plan start snap).get? i
  | [], _, _, i, g, hd, _ => by simp at hd
  | (gw, d) :: rest, start, snap, 0, g, hd, hlt => by
    simp only [List.get?_cons_zero, Option.some.injEq] at hd
    have hdF : d = .F := (Prod.mk.injEq _ _ _ _ ▸ hd).2.symm ▸ rfl
    cases rest with
    | nil => simp at hlt
    | cons hd2 rest2 =>
      obtain ⟨gw2, d2⟩ := hd2
      subst hdF
      simp [apply_strategy_squads, strategyStep]
  | (gw, d) :: rest, start, snap, i + 1, g, hd, hlt => by
    simp only [List.get?_cons_succ] at hd
    have hlt2 : i + 1 < rest.length := by
      simpa [List.length_cons, Nat.succ_lt_succ_iff] using hlt
    simp only [apply_strategy_squads, List.get?_cons_succ]
    exact apply_strategy_squads_free_hit_aux stepFn rebuild rest _ _ i g hd hlt2

/-- C5: in the gameweek loop of `apply_strategy`, whenever the plan plays a
FreeHit at gameweek `g` and `g` is not the last gameweek of the plan, the
squad in effect at the next gameweek (before its directive is applied) is
exactly the squad that existed immediately before the free-hit
reconstruction at `g`: the pre-chip squad is snapshotted, the rebuilt squad is
used for gameweek `g` only, and the snapshot is restored at the top of the
following iteration. -/
theorem C5_free_hit_restore (stepFn : NumTransfers → List ℕ → Squad → Squad)
    (rebuild : List ℕ → Squad → Squad) (plan : List (ℕ × NumTransfers))
    (start : Squad) (i g : ℕ) (hd : plan.get? i = some (g, .F))
    (hlt : i + 1 < plan.length) :
    (apply_strategy_squads stepFn rebuild plan start none).get? (i + 1)
      = (apply_strategy_squads stepFn rebuild plan start none).get? i :=
  apply_strategy_squads_free_hit_aux stepFn rebuild plan start none i g hd hlt

/-- C5 (witness): a two-gameweek plan playing the free hit first; the squad in
effect at gameweek 2 is the pre-chip squad of gameweek 1, even though the
rebuild function returns a different squad. -/
theorem C5_free_hit_restore_witness :
    (apply_strategy_squads (fun _ _ s => s) (fun _ _ => ⟨[], 0, ⟨0, 0, 0, 0⟩⟩)
        [(1, .F), (2, .int 0)] Squad.empty none).get? 1
      = (apply_strategy_squads (fun _ _ s => s) (fun _ _ => ⟨[], 0, ⟨0, 0, 0, 0⟩⟩)
        [(1, .F), (2, .int 0)] Squad.empty none).get? 0 :=
  C5_free_hit_restore (fun _ _ s => s) (fun _ _ => ⟨[], 0, ⟨0, 0, 0, 0⟩⟩)
    [(1, .F), (2, .int 0)] Squad.empty 0 1 rfl (by decide)

/-! ## Claim C4: `make_optimum_single_transfer`

Predicted points are floats in the source; they are modelled over an arbitrary
linear ordered commutative ring `α`.  `expPts s gw bb tc` abstracts
`s.get_expected_points(gw, tag, bench_boost=bb, triple_captain=tc)` (a value
depending on the squad's players and the external prediction data);
`cands pos` is the ranked candidate list returned by the external
`get_predicted_points(gameweek=gameweek_range, position=pos, tag=tag)`;
`pn` is the database price lookup used when selling. -/

/-- The discount mode strings accepted by `get_discount_factor`. -/
inductive DiscountType where
  | exp
  | const
deriving DecidableEq, Repr

/-- `get_discount_factor(next_gw, pred_gw, discount_type, discount)`; the
source defaults are `discount_type="exp"` and `discount=14/15`.  `n_ahead =
pred_gw - next_gw` (nonnegative at every call site, where `pred_gw` ranges
over gameweeks at or after `next_gw`). -/
def get_discount_factor {α : Type} [LinearOrderedCommRing α]
    (next_gw pred_gw : ℕ) (discount_type : DiscountType) (discount : α) : α :=
  let n_ahead := pred_gw - next_gw
  match discount_type with
  | .exp => discount ^ n_ahead
  | .const => max (1 - (1 - discount) * (n_ahead : α)) 0

/-- The scoring loop of `make_optimum_single_transfer`: sum over the gameweek
range of `get_expected_points` (with the bench-boost/triple-captain flag for
the matching gameweek) times the exponential discount anchored at
`gameweek_range[0]`.  `get_expected_points` raises `RuntimeError` on an
incomplete squad, hence the completeness guard (checked once: membership does
not change between the calls); an empty range performs no call and totals 0. -/
def scoreOverRange {α : Type} [LinearOrderedCommRing α]
    (expPts : Squad → ℕ → Bool → Bool → α) (discount : α) (gwRange : List ℕ)
    (bb tc : Option ℕ) (s : Squad) : Option α :=
  match gwRange with
  | [] => some 0
  | gw0 :: _ =>
    if s.is_complete then
      some (gwRange.foldl
        (fun acc gw => acc
          + expPts s gw (bb == some gw) (tc == some gw)
            * get_discount_factor gw0 gw .exp discount) 0)
    else none

/-- The inner candidate scan of `make_optimum_single_transfer`: walk the
ranked list in order, skip the player just removed, call `add_player` (all
checks on) and stop at the first acceptance, returning the extended squad and
the accepted candidate.  `none` models the loop ending with no acceptance. -/
def firstFit (s14 : Squad) (outId : ℕ) :
    List CandidatePlayer → Option (Squad × CandidatePlayer)
  | [] => none
  | c :: rest =>
    if c.player_id = outId then firstFit s14 outId rest
    else if (s14.add_player c none true true).1 then
      some ((s14.add_player c none true true).2, c)
    else firstFit s14 outId rest

/-- One iteration of the outer loop of `make_optimum_single_transfer` for
squad member `pOut`: copy the squad, remove `pOut` (sale price from the
database lookup), scan the same-position candidates first-fit, then compute
the discounted horizon score of the resulting squad.  `none` models the
`RuntimeError` raised when scoring: if no candidate was accepted the
14-player squad fails the completeness check of `get_expected_points` (and
with an empty candidate list the loop variable `p_in` is unbound). -/
def memberOutcome {α : Type} [LinearOrderedCommRing α]
    (expPts : Squad → ℕ → Bool → Bool → α) (discount : α)
    (cands : Position → List CandidatePlayer) (gwRange : List ℕ)
    (bb tc : Option ℕ) (pn : ℕ → Option ℕ) (squad : Squad)
    (pOut : CandidatePlayer) : Option (α × Squad × ℕ × ℕ) :=
  match firstFit (squad.remove_player pOut.player_id none pn).2 pOut.player_id
      (cands pOut.position) with
  | some (s15, pIn) =>
    match scoreOverRange expPts discount gwRange bb tc s15 with
    | some pts => some (pts, s15, pOut.player_id, pIn.player_id)
    | none => none
  | none => none

/-- The outer loop's best tracking: `best_score` starts at `-1.0` and
`best_squad` unbound (`none`); a member strictly beating the best replaces
it.  A `none` member outcome aborts the whole call (exception). -/
def stLoop {α : Type} [LinearOrderedCommRing α]
    (f : CandidatePlayer → Option (α × Squad × ℕ × ℕ)) :
    List CandidatePlayer → α → Option (Squad × ℕ × ℕ) →
      Option (α × Option (Squad × ℕ × ℕ))
  | [], bs, ba => some (bs, ba)
  | p :: rest, bs, ba =>
    match f p with
    | none => none
    | some (pts, s, o, i) =>
      if bs < pts then stLoop f rest pts (some (s, o, i))
      else stLoop f rest bs ba

/-- `make_optimum_single_transfer`: an empty (falsy) gameweek range defaults
to `[NEXT_GAMEWEEK]`; the function returns the best removal/replacement pair
as `(best_squad, [best_pid_out], [best_pid_in])`.  `none` models the
exceptional outcomes: a member with no scorable replacement squad, or
`best_squad` never assigned (`NameError` at the `return`). -/
def make_optimum_single_transfer {α : Type} [LinearOrderedCommRing α]
    (expPts : Squad → ℕ → Bool → Bool → α) (discount : α)
    (cands : Position → List CandidatePlayer) (gwRangeIn : List ℕ)
    (next_gameweek : ℕ) (bb tc : Option ℕ) (pn : ℕ → Option ℕ)
    (squad : Squad) : Option (Squad × List ℕ × List ℕ) :=
  let gwRange := if gwRangeIn = [] then [next_gameweek] else gwRangeIn
  match stLoop (memberOutcome expPts discount cands gwRange bb tc pn squad)
      squad.players (-1) none with
  | none => none
  | some (_, none) => none
  | some (_, some (s, o, i)) => some (s, [o], [i])

/-- Every squad member's outcome is defined (no exception during the scan). -/
def feasibleB {α : Type} [LinearOrderedCommRing α]
    (f : CandidatePlayer → Option (α × Squad × ℕ × ℕ))
    (l : List CandidatePlayer) : Bool :=
  l.all fun p => (f p).isSome

/-- Every defined member outcome strictly beats the initial `best_score` of
`-1.0` (true in particular whenever expected points are nonnegative). -/
def scoresAboveInitB {α : Type} [LinearOrderedCommRing α]
    (f : CandidatePlayer → Option (α × Squad × ℕ × ℕ))
    (l : List CandidatePlayer) : Bool :=
  l.all fun p =>
    match f p with
    | some (pts, _) => decide (-1 < pts)
    | none => true

/-- Summed predicted points of one candidate over the horizon: the ranking
key of the external `get_predicted_points`. -/
def sumPredictedPoints {α : Type} [LinearOrderedCommRing α]
    (pred : CandidatePlayer → ℕ → α) (gwRange : List ℕ)
    (p : CandidatePlayer) : α :=
  (gwRange.map (pred p)).sum

/-- The candidate scan accepts the first list entry, other than the removed
player, whose `add_player` (duplicate/quota/budget/team checks all on)
succeeds: every earlier entry is either the removed player or rejected. -/
lemma firstFit_spec {s14 : Squad} {outId : ℕ} :
    ∀ {cds : List CandidatePlayer} {s2 : Squad} {c : CandidatePlayer},
      firstFit s14 outId cds = some (s2, c) →
      ∃ pre suf, cds = pre ++ c :: suf ∧ c.player_id ≠ outId
        ∧ s14.add_player c none true true = (true, s2)
        ∧ ∀ d ∈ pre, d.player_id = outId ∨ (s14.add_player d none true true).1 = false
  | [], _, _, h => by simp [firstFit] at h
  | d :: rest, s2, c, h => by
    by_cases hid : d.player_id = outId
    · rw [firstFit, if_pos hid] at h
      obtain ⟨pre, suf, hcds, hcid, hadd, hpre⟩ := firstFit_spec h
      refine ⟨d :: pre, suf, by simp [hcds], hcid, hadd, ?_⟩
      intro e he
      rcases List.mem_cons.mp he with he | he
      · exact Or.inl (he ▸ hid)
      · exact hpre e he
    · rw [firstFit, if_neg hid] at h
      by_cases hok : (s14.add_player d none true true).1 = true
      · rw [if_pos hok] at h
        obtain ⟨hs2, hc⟩ := by simpa [Prod.ext_iff] using h
        subst hc
        exact ⟨[], rest, by simp, hid, Prod.ext hok hs2, by simp⟩
      · rw [if_neg hok] at h
        obtain ⟨pre, suf, hcds, hcid, hadd, hpre⟩ := firstFit_spec h
        refine ⟨d :: pre, suf, by simp [hcds], hcid, hadd, ?_⟩
        intro e he
        rcases List.mem_cons.mp he with he | he
        · subst he
          exact Or.inr (by simpa using hok)
        · exact hpre e he

/-- Invariant of the best-tracking loop: it never throws when every member
outcome is defined, the best score never drops, dominates every processed
member's score, and the final assignment is either the initial one (nothing
strictly beat `bs`) or some processed member's outcome achieving the final
best score. -/
lemma stLoop_spec {α : Type} [LinearOrderedCommRing α]
    (f : CandidatePlayer → Option (α × Squad × ℕ × ℕ)) :
    ∀ (l : List CandidatePlayer) (bs : α) (ba : Option (Squad × ℕ × ℕ)),
      (∀ p ∈ l, (f p).isSome = true) →
      ∃ bs2 ba2, stLoop f l bs ba = some (bs2, ba2)
        ∧ bs ≤ bs2
        ∧ (∀ p ∈ l, ∀ pts r, f p = some (pts, r) → pts ≤ bs2)
        ∧ ((bs2 = bs ∧ ba2 = ba)
            ∨ ∃ p ∈ l, ∃ r, f p = some (bs2, r) ∧ ba2 = some r)
  | [], bs, ba, _ => ⟨bs, ba, rfl, le_refl bs, by simp, Or.inl ⟨rfl, rfl⟩⟩
  | p :: rest, bs, ba, hall => by
    have hp : (f p).isSome = true := hall p (List.mem_cons_self p rest)
    obtain ⟨t, ht⟩ := Option.isSome_iff_exists.mp hp
    obtain ⟨pts, s, o, i⟩ := t
    have hrest : ∀ q ∈ rest, (f q).isSome = true :=
      fun q hq => hall q (List.mem_cons_of_mem _ hq)
    by_cases hlt : bs < pts
    · obtain ⟨bs2, ba2, heq, hge, hdom, hcase⟩ :=
        stLoop_spec f rest pts (some (s, o, i)) hrest
      refine ⟨bs2, ba2, by simp [stLoop, ht, hlt, heq], le_trans (le_of_lt hlt) hge,
        ?_, ?_⟩
      · intro q hq pts2 r2 hq2
        rcases List.mem_cons.mp hq with hq | hq
        · subst hq
          rw [ht] at hq2
          obtain ⟨h1, -⟩ := by simpa [Prod.ext_iff] using hq2
          exact h1 ▸ hge
        · exact hdom q hq pts2 r2 hq2
      · rcases hcase with ⟨hbs, hba⟩ | ⟨q, hq, r, hfq, hba⟩
        · exact Or.inr ⟨p, List.mem_cons_self p rest, (s, o, i),
            by rw [ht, hbs], hba⟩
        · exact Or.inr ⟨q, List.mem_cons_of_mem _ hq, r, hfq, hba⟩
    · obtain ⟨bs2, ba2, heq, hge, hdom, hcase⟩ := stLoop_spec f rest bs ba hrest
      refine ⟨bs2, ba2, by simp [stLoop, ht, hlt, heq], hge, ?_, ?_⟩
      · intro q hq pts2 r2 hq2
        rcases List.mem_cons.mp hq with hq | hq
        · subst hq
          rw [ht] at hq2
          obtain ⟨h1, -⟩ := by simpa [Prod.ext_iff] using hq2
          exact h1 ▸ le_trans (le_of_not_lt hlt) hge
        · exact hdom q hq pts2 r2 hq2
      · rcases hcase with ⟨hbs, hba⟩ | ⟨q, hq, r, hfq, hba⟩
        · exact Or.inl ⟨hbs, hba⟩
        · exact Or.inr ⟨q, List.mem_cons_of_mem _ hq, r, hfq, hba⟩

instance : Fintype Position where
  elems :=
    ⟨(↑([Position.GK, Position.DEF, Position.MID, Position.FWD]) :
        Multiset Position), by decide⟩
  complete := fun x => by cases x <;> decide

/-- C4: in `make_optimum_single_transfer` — with the candidate lists ranked
descending by summed predicted points over the horizon, as the external
`get_predicted_points` supplies them — (a) the scan for a removed member
accepts exactly the first same-position candidate, other than the removed
player, whose addition passes the duplicate/quota/budget/team checks; (b)
each member's outcome is obtained by removing that member from a copy of the
squad, accepting such a first-fit replacement, and computing the discounted
horizon score of the resulting squad; and (c) assuming every member has a
scorable replacement and every score beats the initial `-1.0`, the function
returns the removal/replacement pair (and its squad) whose score is the
global maximum over all squad members. -/
theorem C4_make_optimum_single_transfer {α : Type} [LinearOrderedCommRing α]
    (expPts : Squad → ℕ → Bool → Bool → α) (discount : α)
    (pred : CandidatePlayer → ℕ → α)
    (cands : Position → List CandidatePlayer) (gwRangeIn : List ℕ)
    (next_gameweek : ℕ) (bb tc : Option ℕ) (pn : ℕ → Option ℕ) (squad : Squad)
    (gwR : List ℕ)
    (hgw : gwR = if gwRangeIn = [] then [next_gameweek] else gwRangeIn)
    (hsorted : ∀ pos, (cands pos).Sorted fun a b =>
        sumPredictedPoints pred gwR b ≤ sumPredictedPoints pred gwR a)
    (hne : squad.players ≠ [])
    (hfeas : feasibleB (memberOutcome expPts discount cands gwR bb tc pn squad)
        squad.players = true)
    (habove : scoresAboveInitB
        (memberOutcome expPts discount cands gwR bb tc pn squad)
        squad.players = true) :
    (∀ (s14 : Squad) (outId : ℕ) (cds : List CandidatePlayer) (s2 : Squad)
        (c : CandidatePlayer),
        firstFit s14 outId cds = some (s2, c) →
        ∃ pre suf, cds = pre ++ c :: suf ∧ c.player_id ≠ outId
          ∧ s14.add_player c none true true = (true, s2)
          ∧ ∀ d ∈ pre, d.player_id = outId
              ∨ (s14.add_player d none true true).1 = false)
    ∧ (∀ pOut pts s2 o i,
        memberOutcome expPts discount cands gwR bb tc pn squad pOut
            = some (pts, s2, o, i) →
        o = pOut.player_id
        ∧ ∃ c, firstFit (squad.remove_player pOut.player_id none pn).2
              pOut.player_id (cands pOut.position) = some (s2, c)
            ∧ i = c.player_id
            ∧ scoreOverRange expPts discount gwR bb tc s2 = some pts)
    ∧ ∃ pOut pts s2 i, pOut ∈ squad.players
        ∧ memberOutcome expPts discount cands gwR bb tc pn squad pOut
            = some (pts, s2, pOut.player_id, i)
        ∧ make_optimum_single_transfer expPts discount cands gwRangeIn
            next_gameweek bb tc pn squad = some (s2, [pOut.player_id], [i])
        ∧ ∀ q ∈ squad.players, ∀ pts2 r2,
            memberOutcome expPts discount cands gwR bb tc pn squad q
              = some (pts2, r2) → pts2 ≤ pts := by
  have hchar : ∀ pOut pts s2 o i,
      memberOutcome expPts discount cands gwR bb tc pn squad pOut
          = some (pts, s2, o, i) →
      o = pOut.player_id
      ∧ ∃ c, firstFit (squad.remove_player pOut.player_id none pn).2
            pOut.player_id (cands pOut.position) = some (s2, c)
          ∧ i = c.player_id
          ∧ scoreOverRange expPts discount gwR bb tc s2 = some pts := by
    intro pOut pts s2 o i h
    cases hff : firstFit (squad.remove_player pOut.player_id none pn).2
        pOut.player_id (cands pOut.position) with
    | none => simp [memberOutcome, hff] at h
    | some t =>
      obtain ⟨s15, pIn⟩ := t
      cases hsc : scoreOverRange expPts discount gwR bb tc s15 with
      | none => simp [memberOutcome, hff, hsc] at h
      | some pts2 =>
        have h2 : some (pts2, s15, pOut.player_id, pIn.player_id)
            = some (pts, s2, o, i) := by
          simpa [memberOutcome, hff, hsc] using h
        obtain ⟨hpts, hs, ho, hi⟩ := by simpa [Prod.ext_iff] using h2
        refine ⟨ho.symm, pIn, ?_, hi.symm, ?_⟩
        · rw [← hs]
        · rw [← hs, hsc, hpts]
  refine ⟨fun s14 outId cds s2 c h => firstFit_spec h, hchar, ?_⟩
  have hallsome : ∀ p ∈ squad.players,
      ((memberOutcome expPts discount cands gwR bb tc pn squad) p).isSome = true := by
    simpa [feasibleB, List.all_eq_true] using hfeas
  obtain ⟨bs2, ba2, heq, -, hdom, hcase⟩ :=
    stLoop_spec (memberOutcome expPts discount cands gwR bb tc pn squad)
      squad.players (-1) none hallsome
  obtain ⟨p0, rest, hps⟩ : ∃ p0 rest, squad.players = p0 :: rest := by
    cases hl : squad.players with
    | nil => exact absurd hl hne
    | cons a l => exact ⟨a, l, rfl⟩
  have hmem0 : p0 ∈ squad.players := by rw [hps]; exact List.mem_cons_self _ _
  obtain ⟨⟨pts0, r0⟩, ht0⟩ := Option.isSome_iff_exists.mp (hallsome p0 hmem0)
  have hpos0 : (-1 : α) < pts0 := by
    simp only [scoresAboveInitB, List.all_eq_true] at habove
    have h2 := habove p0 hmem0
    rw [ht0] at h2
    simpa using h2
  have hbs2 : (-1 : α) < bs2 := lt_of_lt_of_le hpos0 (hdom p0 hmem0 pts0 r0 ht0)
  rcases hcase with ⟨hbs, -⟩ | ⟨q, hq, r, hfq, hba⟩
  · rw [hbs] at hbs2
    exact absurd hbs2 (lt_irrefl _)
  · obtain ⟨s2, o, i⟩ := r
    obtain ⟨ho, -⟩ := hchar q bs2 s2 o i hfq
    subst ho
    refine ⟨q, bs2, s2, i, hq, hfq, ?_, fun q2 hq2 pts2 r2 h2 => hdom q2 hq2 pts2 r2 h2⟩
    simp only [make_optimum_single_transfer, ← hgw]
    rw [heq, hba]

/-- A concrete complete 15-player squad for instantiating C4. -/
def wC4Squad : Squad :=
  ⟨[⟨1, 1, .GK, 10⟩, ⟨2, 1, .GK, 10⟩, ⟨3, 1, .DEF, 10⟩, ⟨4, 2, .DEF, 10⟩,
    ⟨5, 2, .DEF, 10⟩, ⟨6, 2, .DEF, 10⟩, ⟨7, 3, .DEF, 10⟩, ⟨8, 3, .MID, 10⟩,
    ⟨9, 3, .MID, 10⟩, ⟨10, 4, .MID, 10⟩, ⟨11, 4, .MID, 10⟩, ⟨12, 4, .MID, 10⟩,
    ⟨13, 5, .FWD, 10⟩, ⟨14, 5, .FWD, 10⟩, ⟨15, 5, .FWD, 10⟩], 850, ⟨2, 5, 5, 3⟩⟩

/-- Concrete single-candidate ranked lists for instantiating C4. -/
def wC4Cands : Position → List CandidatePlayer
  | .GK => [⟨101, 99, .GK, 10⟩]
  | .DEF => [⟨102, 99, .DEF, 10⟩]
  | .MID => [⟨103, 99, .MID, 10⟩]
  | .FWD => [⟨104, 99, .FWD, 10⟩]

/-- C4 (witness): on the concrete squad and candidate lists the search returns
a removal/replacement pair; all side conditions are discharged by
evaluation. -/
theorem C4_make_optimum_single_transfer_witness :
    ∃ s2 o i, make_optimum_single_transfer (α := ℤ) (fun _ _ _ _ => 0) 1
        wC4Cands [5] 5 none none (fun _ => some 10) wC4Squad
      = some (s2, [o], [i]) := by
  obtain ⟨-, -, pOut, pts, s2, i, -, -, hres, -⟩ :=
    C4_make_optimum_single_transfer (α := ℤ) (fun _ _ _ _ => 0) 1 (fun _ _ => 0)
      wC4Cands [5] 5 none none (fun _ => some 10) wC4Squad [5] (by decide)
      (by decide) (by decide) (by decide) (by decide)
  exact ⟨s2, pOut.player_id, i, hres⟩

end AIrsenal
